import Mathlib

/-!
Verification development for the rimor repository: a grid of recovering
rewards together with a greedy best-first walker (`path_planning_bfs`), an
exact edge-flow integer program (`Graph::lp`) and a time-indexed integer
program (`Graph::path_planning_lp`).

The development is a shallow embedding of the Rust sources:

* namespace `RimorLib` embeds the `pathfinding` crate
  (`pathfinding/src/lib.rs`, `pathfinding/src/bfs.rs`, `pathfinding/src/lp.rs`);
* namespace `RimorApp` embeds the GUI-internal copy `src/pathfinding.rs`,
  whose `path_planning_bfs` takes `&mut self` and whose `path_planning_lp`
  builds the time-indexed constraint system.

Machine integers (`u32`, `usize`) are embedded as `Nat`; the reward dynamics
only add, so no wrap-around is modelled except where a claim depends on the
`u32` range (grid loading, where `parse::<u32>` rejects values `≥ 2^32`).
A Rust panic is embedded as `Option.none` where a function can panic.
The LP/ILP solver is external to the repository; the constraint systems the
code hands to it are embedded as satisfaction predicates over assignments of
rational values to the decision variables, so that feasibility and the shape
of the constraint set can be reasoned about without modelling the solver.
-/

/-- A grid cell `(row, col)`, the Rust `Position = (usize, usize)`. -/
abbrev Position := Nat × Nat

/-- List update helper: `List.set` at the written index. -/
theorem getD_set_self {α : Type _} : ∀ (l : List α) (i : Nat) (x d : α), i < l.length →
    (l.set i x).getD i d = x := by
  intro l
  induction l with
  | nil => intro i x d h; simp at h
  | cons a as ih =>
    intro i x d h
    cases i with
    | zero => simp
    | succ n => simpa using ih n x d (by simpa using h)

/-- List update helper: `List.set` away from the written index. -/
theorem getD_set_other {α : Type _} : ∀ (l : List α) (i j : Nat) (x d : α), i ≠ j →
    (l.set i x).getD j d = l.getD j d := by
  intro l
  induction l with
  | nil => intro i j x d _; simp
  | cons a as ih =>
    intro i j x d h
    cases i with
    | zero =>
      cases j with
      | zero => exact absurd rfl h
      | succ m => simp
    | succ n =>
      cases j with
      | zero => simp
      | succ m => simpa using ih n m x d (by omega)

/-- Indexed map, used to embed the Rust `for i { for j { ... } }` update loops
functionally; the extra argument is the index of the list's head. -/
def mapIdxFrom {α : Type _} (f : Nat → α → α) : Nat → List α → List α
  | _, [] => []
  | k, a :: rest => f k a :: mapIdxFrom f (k + 1) rest

theorem length_mapIdxFrom {α : Type _} (f : Nat → α → α) :
    ∀ (k : Nat) (l : List α), (mapIdxFrom f k l).length = l.length := by
  intro k l
  induction l generalizing k with
  | nil => rfl
  | cons a rest ih => simpa [mapIdxFrom] using ih (k + 1)

theorem getD_mapIdxFrom {α : Type _} (f : Nat → α → α) :
    ∀ (l : List α) (k i : Nat) (d : α), i < l.length →
      (mapIdxFrom f k l).getD i d = f (k + i) (l.getD i d) := by
  intro l
  induction l with
  | nil => intro k i d h; simp at h
  | cons a rest ih =>
    intro k i d h
    cases i with
    | zero => simp [mapIdxFrom]
    | succ n =>
      have := ih (k + 1) n d (by simpa using h)
      simpa [mapIdxFrom, Nat.add_assoc, Nat.add_comm 1 n] using this

namespace RimorLib

/-- Embeds `struct Node` of `pathfinding/src/lib.rs`. -/
structure Node where
  score : Nat
  decay_rate : Nat
  recovery_rate : Nat
deriving DecidableEq

/-- Embeds `Node::new`. -/
def Node.new : Node := ⟨0, 0, 0⟩

/-- Embeds `struct Graph` of `pathfinding/src/lib.rs`: a square vector of
nodes plus the `size` recorded at construction. -/
structure Graph where
  nodes : List (List Node)
  size : Nat
deriving DecidableEq

/-- Embeds `Graph::new(size)`. -/
def Graph.new (size : Nat) : Graph :=
  ⟨List.replicate size (List.replicate size Node.new), size⟩

/-- Embeds the `size()` method, which returns `self.nodes.len()` (as opposed
to the `size` field used by `get_neighbors`). -/
def Graph.gsize (g : Graph) : Nat := g.nodes.length

/-- Embeds `Graph::get_node_at`. Rust indexing panics out of bounds; the
embedding totalises with a default, and every claim about cell contents
carries an in-bounds hypothesis. -/
def Graph.get_node_at (g : Graph) (u : Position) : Node :=
  (g.nodes.getD u.1 []).getD u.2 Node.new

/-- Modelled from the spec: the score accessor `get_score_at` used by
`bfs.rs`/`lp.rs` lives in a newer `lib.rs` that is not under `src/`; per the
spec contract `value(cell) → reward` it reads the node's reward. -/
def Graph.get_score_at (g : Graph) (u : Position) : Nat :=
  (g.get_node_at u).score

/-- Embeds `Graph::add_node` (assignment `self.nodes[i][j] = node`; the
out-of-bounds panic is not reachable from the embedded callers, which either
bound-check first or construct in range). -/
def Graph.add_node (g : Graph) (u : Position) (node : Node) : Graph :=
  { g with nodes := g.nodes.set u.1 ((g.nodes.getD u.1 []).set u.2 node) }

/-- Embeds `Graph::reset_score`: clone the grid and zero one cell's score. -/
def Graph.reset_score (g : Graph) (u : Position) : Graph :=
  g.add_node u { g.get_node_at u with score := 0 }

/-- Embeds `Graph::recover_for`: clone the grid and add `recovery_rate` to the
score of every cell `(i, j)` with `i, j < self.size()` other than `except`. -/
def Graph.recover_for (g : Graph) (recovery_rate : Nat) (except : Position) : Graph :=
  { g with nodes := mapIdxFrom (fun i row => mapIdxFrom (fun j n =>
      if i < g.gsize ∧ j < g.gsize ∧ (i, j) ≠ except then
        { n with score := n.score + recovery_rate } else n) 0 row) 0 g.nodes }

/-- The eight Moore offsets, in the order `get_neighbors` iterates them. -/
def neighbor_offsets : List (Int × Int) :=
  [(-1, -1), (-1, 0), (-1, 1), (0, -1), (0, 1), (1, -1), (1, 0), (1, 1)]

/-- Embeds `Graph::get_neighbors`: the in-bounds Moore neighbours of `u`,
bounds taken from the `size` field. -/
def Graph.get_neighbors (g : Graph) (u : Position) : List Position :=
  neighbor_offsets.filterMap (fun d =>
    let ni : Int := (u.1 : Int) + d.1
    let nj : Int := (u.2 : Int) + d.2
    if 0 ≤ ni ∧ ni < (g.size : Int) ∧ 0 ≤ nj ∧ nj < (g.size : Int) then
      some (ni.toNat, nj.toNat)
    else none)

/-- Modelled from the spec: `get_nodes_out`, called by `bfs.rs` and `lp.rs`,
is declared in a newer `lib.rs` that is not under `src/`. The spec's adjacency
(§3, 8-connected Moore neighbourhood clipped at the boundary, no self-loops)
is exactly `get_neighbors` above, whose unit tests match `bfs.rs`'s expected
outputs. -/
def Graph.get_nodes_out (g : Graph) (u : Position) : List Position :=
  g.get_neighbors u

/-- Modelled from the spec: `get_edges_in`, called by `lp.rs`, is declared in
the newer `lib.rs` missing from `src/`. The Moore adjacency is symmetric, so
the sources of the incoming edges of `u` are its Moore neighbours. -/
def Graph.get_edges_in (g : Graph) (u : Position) : List Position :=
  g.get_neighbors u

/-- Well-formed grid: the node matrix is square of side `size`, as every
constructor in the sources produces. -/
def Graph.WF (g : Graph) : Prop :=
  g.nodes.length = g.size ∧ ∀ row ∈ g.nodes, row.length = g.size

instance (g : Graph) : Decidable g.WF := by
  unfold Graph.WF; infer_instance

theorem WF_new (n : Nat) : (Graph.new n).WF := by
  constructor
  · simp [Graph.new]
  · intro row hrow
    have h := List.eq_of_mem_replicate (show row ∈ _ by simpa [Graph.new] using hrow)
    simp [Graph.new, h]

/-- Every neighbour returned by `get_neighbors` is in bounds. -/
theorem mem_get_neighbors_bounds (g : Graph) (u v : Position)
    (hv : v ∈ g.get_neighbors u) : v.1 < g.size ∧ v.2 < g.size := by
  unfold Graph.get_neighbors at hv
  obtain ⟨d, _, hd⟩ := List.mem_filterMap.mp hv
  by_cases hc : 0 ≤ (u.1 : Int) + d.1 ∧ (u.1 : Int) + d.1 < (g.size : Int) ∧
      0 ≤ (u.2 : Int) + d.2 ∧ (u.2 : Int) + d.2 < (g.size : Int)
  · rw [if_pos hc] at hd
    obtain ⟨h1, h2, h3, h4⟩ := hc
    cases hd
    constructor <;> simp only [] <;> omega
  · rw [if_neg hc] at hd
    exact absurd hd (by simp)

/-- `get_neighbors` never returns the cell itself. -/
theorem self_not_mem_get_neighbors (g : Graph) (u : Position) :
    u ∉ g.get_neighbors u := by
  intro hmem
  unfold Graph.get_neighbors at hmem
  obtain ⟨d, hdmem, hd⟩ := List.mem_filterMap.mp hmem
  by_cases hc : 0 ≤ (u.1 : Int) + d.1 ∧ (u.1 : Int) + d.1 < (g.size : Int) ∧
      0 ≤ (u.2 : Int) + d.2 ∧ (u.2 : Int) + d.2 < (g.size : Int)
  · rw [if_pos hc] at hd
    have h1 : ((u.1 : Int) + d.1).toNat = u.1 := congrArg Prod.fst (Option.some.inj hd)
    have h2 : ((u.2 : Int) + d.2).toNat = u.2 := congrArg Prod.snd (Option.some.inj hd)
    have hd1 : d.1 = 0 := by omega
    have hd2 : d.2 = 0 := by omega
    have : d = ((0 : Int), (0 : Int)) := Prod.ext hd1 hd2
    rw [this] at hdmem
    exact absurd hdmem (by decide)
  · rw [if_neg hc] at hd
    exact absurd hd (by simp)

/-- `get_neighbors` returns at most the eight Moore offsets. -/
theorem length_get_neighbors_le (g : Graph) (u : Position) :
    (g.get_neighbors u).length ≤ 8 := by
  have h := List.length_filterMap_le (fun d : Int × Int =>
    let ni : Int := (u.1 : Int) + d.1
    let nj : Int := (u.2 : Int) + d.2
    if 0 ≤ ni ∧ ni < (g.size : Int) ∧ 0 ≤ nj ∧ nj < (g.size : Int) then
      some (ni.toNat, nj.toNat)
    else none) neighbor_offsets
  simpa [Graph.get_neighbors, neighbor_offsets] using h

/-- On a grid of size at least two an in-bounds cell always has a neighbour:
offset `(1, 0)` when the cell is in row zero, offset `(-1, 0)` otherwise. -/
theorem get_neighbors_ne_nil (g : Graph) (u : Position)
    (h1 : u.1 < g.size) (h2 : u.2 < g.size) (hs : 2 ≤ g.size) :
    g.get_neighbors u ≠ [] := by
  intro hnil
  rw [Graph.get_neighbors, List.filterMap_eq_nil_iff] at hnil
  by_cases hz : u.1 = 0
  · have := hnil ((1 : Int), (0 : Int)) (by decide)
    rw [if_pos (by constructor <;> omega)] at this
    exact absurd this (by simp)
  · have := hnil ((-1 : Int), (0 : Int)) (by decide)
    rw [if_pos (by constructor <;> omega)] at this
    exact absurd this (by simp)

end RimorLib

/-- C6: for every grid and every in-bounds cell, `get_neighbors` returns only
in-bounds cells, never the cell itself, and at most eight cells. -/
theorem get_neighbors_spec (g : RimorLib.Graph) (u : Position)
    (h1 : u.1 < g.size) (h2 : u.2 < g.size) :
    (∀ v ∈ g.get_neighbors u, v.1 < g.size ∧ v.2 < g.size) ∧
    u ∉ g.get_neighbors u ∧
    (g.get_neighbors u).length ≤ 8 :=
  ⟨fun v hv => RimorLib.mem_get_neighbors_bounds g u v hv,
   RimorLib.self_not_mem_get_neighbors g u,
   RimorLib.length_get_neighbors_le g u⟩

/-- Witness for C6 at a concrete grid and cell. -/
theorem get_neighbors_spec_witness :
    (0 : Nat) < (RimorLib.Graph.new 3).size ∧
      ((RimorLib.Graph.new 3).get_neighbors (0, 0)).length ≤ 8 :=
  ⟨by decide, (get_neighbors_spec (RimorLib.Graph.new 3) (0, 0) (by decide) (by decide)).2.2⟩

namespace RimorLib

/-- List read helper: an in-bounds `getD` read is a member of the list. -/
theorem getD_mem {α : Type _} : ∀ (l : List α) (i : Nat) (d : α), i < l.length →
    l.getD i d ∈ l := by
  intro l
  induction l with
  | nil => intro i d h; simp at h
  | cons a as ih =>
    intro i d h
    cases i with
    | zero => simp
    | succ n => exact List.mem_cons_of_mem a (ih n d (by simpa using h))

/-- Pointwise behaviour of `add_node` on an in-bounds target cell. -/
theorem get_node_at_add_node (g : Graph) (u : Position) (node : Node) (v : Position)
    (hu1 : u.1 < g.nodes.length) (hu2 : u.2 < (g.nodes.getD u.1 []).length) :
    (g.add_node u node).get_node_at v = if v = u then node else g.get_node_at v := by
  unfold Graph.add_node Graph.get_node_at
  by_cases h1 : v.1 = u.1
  · rw [h1, getD_set_self _ _ _ _ hu1]
    by_cases h2 : v.2 = u.2
    · rw [h2, getD_set_self _ _ _ _ hu2,
        if_pos (show v = u from Prod.ext_iff.mpr ⟨h1, h2⟩)]
    · rw [getD_set_other _ _ _ _ _ (fun he => h2 he.symm),
        if_neg (show ¬v = u from fun he => h2 (by rw [he]))]
  · rw [getD_set_other _ _ _ _ _ (fun he => h1 he.symm),
      if_neg (show ¬v = u from fun he => h1 (by rw [he]))]

/-- Pointwise behaviour of `recover_for` on an in-bounds cell of a well-formed
grid: every cell other than `except` gains `recovery_rate`. -/
theorem get_node_at_recover_for (g : Graph) (r : Nat) (e v : Position)
    (hwf : g.WF) (hv1 : v.1 < g.size) (hv2 : v.2 < g.size) :
    (g.recover_for r e).get_node_at v =
      if v = e then g.get_node_at v
      else { g.get_node_at v with score := (g.get_node_at v).score + r } := by
  obtain ⟨hlen, hrows⟩ := hwf
  have hv1' : v.1 < g.nodes.length := by omega
  have hrowlen : (g.nodes.getD v.1 []).length = g.size :=
    hrows _ (getD_mem _ _ _ hv1')
  unfold Graph.recover_for Graph.get_node_at
  rw [getD_mapIdxFrom _ _ _ _ _ hv1', getD_mapIdxFrom _ _ _ _ _ (by omega)]
  simp only [Nat.zero_add, Prod.mk.eta]
  by_cases h : v = e
  · rw [if_pos h, if_neg (by
      intro hcon
      exact hcon.2.2 h)]
  · rw [if_neg h, if_pos ⟨by simpa [Graph.gsize] using hv1', by
      simp only [Graph.gsize]; omega, h⟩]

end RimorLib

/-- C7: on a well-formed grid, for in-bounds cells, `reset_score` (visit)
zeroes exactly the visited cell's reward and leaves every other cell's reward
unchanged, and `recover_for` adds exactly the recovery rate to every cell's
reward except the excluded cell, which is unchanged. The statement observes
an arbitrary in-bounds cell `v`. -/
theorem visit_recover_pointwise (g : RimorLib.Graph) (c e v : Position) (r : Nat)
    (hwf : g.WF) (hc1 : c.1 < g.size) (hc2 : c.2 < g.size)
    (he1 : e.1 < g.size) (he2 : e.2 < g.size) (hv1 : v.1 < g.size) (hv2 : v.2 < g.size) :
    ((g.reset_score c).get_node_at v).score = (if v = c then 0 else (g.get_node_at v).score) ∧
    ((g.recover_for r e).get_node_at v).score =
      (if v = e then (g.get_node_at v).score else (g.get_node_at v).score + r) := by
  obtain ⟨hlen, hrows⟩ := hwf
  have hrowlen : (g.nodes.getD c.1 []).length = g.size :=
    hrows _ (RimorLib.getD_mem _ _ _ (by omega))
  constructor
  · unfold RimorLib.Graph.reset_score
    rw [RimorLib.get_node_at_add_node g c _ v (by omega) (by omega)]
    by_cases h : v = c
    · rw [if_pos h, if_pos h]
    · rw [if_neg h, if_neg h]
  · rw [RimorLib.get_node_at_recover_for g r e v ⟨hlen, hrows⟩ hv1 hv2]
    by_cases h : v = e
    · rw [if_pos h, if_pos h]
    · rw [if_neg h, if_neg h]

/-- Witness for C7 at a concrete grid and cells. -/
theorem visit_recover_pointwise_witness :
    (RimorLib.Graph.new 2).WF ∧
      (((RimorLib.Graph.new 2).recover_for 4 (0, 0)).get_node_at (1, 1)).score =
        (if ((1 : Nat), (1 : Nat)) = ((0 : Nat), (0 : Nat)) then
          ((RimorLib.Graph.new 2).get_node_at (1, 1)).score
         else ((RimorLib.Graph.new 2).get_node_at (1, 1)).score + 4) :=
  ⟨RimorLib.WF_new 2,
   (visit_recover_pointwise (RimorLib.Graph.new 2) (0, 0) (0, 0) (1, 1) 4
      (RimorLib.WF_new 2) (by decide) (by decide) (by decide) (by decide)
      (by decide) (by decide)).2⟩

namespace RimorLib

/-- Embeds `struct PathfindingStep` (crate version, with the 1-based `step`
index field used by `bfs.rs` and `lp.rs`). -/
structure PathfindingStep where
  node : Position
  score : Nat
  step : Nat
deriving DecidableEq

/-- Embeds `struct PathfindingResult`. -/
structure PathfindingResult where
  path : List PathfindingStep
deriving DecidableEq

/-- Embeds `PathfindingResult::empty`. -/
def PathfindingResult.empty : PathfindingResult := ⟨[]⟩

/-- Embeds `PathfindingResult::score`: the sum of the per-step scores. -/
def PathfindingResult.score (r : PathfindingResult) : Nat :=
  (r.path.map PathfindingStep.score).sum

/-- Embeds `struct PathfindingBestFirstSearchState` of `bfs.rs`. -/
structure PathfindingBestFirstSearchState where
  score : Nat
  timesteps_remaining : Nat
  node : Position
deriving DecidableEq

/-- The comparison the `BinaryHeap` of `bfs.rs` maximises: its `Ord` instance
orders states by `score`, so `pop` returns a state of maximal score. Ties are
popped in an order `BinaryHeap` leaves unspecified; the embedding fixes the
first maximal element in queue order. -/
def pickMax (a b : PathfindingBestFirstSearchState) : PathfindingBestFirstSearchState :=
  if a.score < b.score then b else a

/-- Embeds `BinaryHeap::pop` for the walker's queue. The remainder of the
queue is not returned: on every path where the loop continues, the source
clears the queue (`pq.clear()`) before refilling it. -/
def popMax (pq : List PathfindingBestFirstSearchState) :
    Option PathfindingBestFirstSearchState :=
  match pq with
  | [] => none
  | s :: rest => some (List.foldl pickMax s rest)

theorem pickMax_cases (a b : PathfindingBestFirstSearchState) :
    pickMax a b = a ∨ pickMax a b = b := by
  unfold pickMax; split
  · right; rfl
  · left; rfl

theorem foldl_pickMax_mem :
    ∀ (rest : List PathfindingBestFirstSearchState) (s : PathfindingBestFirstSearchState),
      List.foldl pickMax s rest = s ∨ List.foldl pickMax s rest ∈ rest := by
  intro rest
  induction rest with
  | nil => intro s; left; rfl
  | cons x xs ih =>
    intro s
    rcases ih (pickMax s x) with h | h
    · rcases pickMax_cases s x with h2 | h2
      · left; rw [List.foldl_cons, h, h2]
      · right; rw [List.foldl_cons, h, h2]; exact List.mem_cons_self x xs
    · right; exact List.mem_cons_of_mem x (by rw [List.foldl_cons]; exact h)

theorem popMax_mem (pq : List PathfindingBestFirstSearchState)
    (st : PathfindingBestFirstSearchState) (h : popMax pq = some st) : st ∈ pq := by
  cases pq with
  | nil => simp [popMax] at h
  | cons s rest =>
    have he : List.foldl pickMax s rest = st := Option.some.inj (by simpa [popMax] using h)
    rcases foldl_pickMax_mem rest s with h2 | h2
    · rw [← he, h2]; exact List.mem_cons_self s rest
    · rw [← he]; exact List.mem_cons_of_mem s h2

/-- The grid update one walker step performs: zero the visited cell, then
recover every other cell (`graph.reset_score(..).recover_for(..)`). -/
def bfsStepGraph (recovery_rate : Nat) (graph : Graph) (u : Position) : Graph :=
  (graph.reset_score u).recover_for recovery_rate u

theorem size_bfsStepGraph (recovery_rate : Nat) (graph : Graph) (u : Position) :
    (bfsStepGraph recovery_rate graph u).size = graph.size := rfl

/-- Embeds the `while let Some(state) = pq.pop()` loop of
`Graph::path_planning_bfs` in `bfs.rs`. The `fuel` argument drives the
recursion; `path_planning_bfs` passes `max_timesteps + 1`, which is exact:
every popped state carries `timesteps_remaining` one below the previous
iteration's, and the loop breaks at zero, so at most `max_timesteps + 1`
iterations run. -/
def bfsLoop (recovery_rate : Nat) : Nat → Graph → List PathfindingBestFirstSearchState →
    List PathfindingStep → Nat → List PathfindingStep
  | 0, _, _, path, _ => path
  | fuel + 1, graph, pq, path, step =>
    match popMax pq with
    | none => path
    | some state =>
      if state.timesteps_remaining = 0 then path
      else
        bfsLoop recovery_rate fuel (bfsStepGraph recovery_rate graph state.node)
          (((bfsStepGraph recovery_rate graph state.node).get_nodes_out state.node).map
            (fun neighbor =>
              ⟨(bfsStepGraph recovery_rate graph state.node).get_score_at neighbor,
                state.timesteps_remaining - 1, neighbor⟩))
          (path ++ [⟨state.node, graph.get_score_at state.node, step + 1⟩])
          (step + 1)

/-- Embeds `Graph::path_planning_bfs` of `bfs.rs`: push the start state, then
run the best-first loop. -/
def Graph.path_planning_bfs (g : Graph) (start : Position)
    (max_timesteps recovery_rate : Nat) : PathfindingResult :=
  ⟨bfsLoop recovery_rate (max_timesteps + 1) g
    [⟨g.get_score_at start, max_timesteps, start⟩] [] 0⟩

/-- Default step used for non-dependent list reads in the statements below. -/
def dummyStep : PathfindingStep := ⟨(0, 0), 0, 0⟩

theorem getD_append_left {α : Type _} :
    ∀ (l l' : List α) (i : Nat) (d : α), i < l.length →
      (l ++ l').getD i d = l.getD i d := by
  intro l
  induction l with
  | nil => intro l' i d h; simp at h
  | cons a as ih =>
    intro l' i d h
    cases i with
    | zero => simp
    | succ n => simpa using ih l' n d (by simpa using h)

theorem getD_append_length {α : Type _} :
    ∀ (l : List α) (x d : α), (l ++ [x]).getD l.length d = x := by
  intro l
  induction l with
  | nil => intro x d; rfl
  | cons a as ih => intro x d; simpa using ih x d

/-- Shape invariant of the walker loop: starting from a non-empty queue whose
states all carry `timesteps_remaining = r` and in-bounds cells, on a grid of
size at least two, the loop appends exactly `r` further steps and keeps the
step indices contiguous from one. -/
theorem bfsLoop_shape (recovery_rate : Nat) :
    ∀ (r : Nat) (g : Graph) (pq : List PathfindingBestFirstSearchState)
      (path : List PathfindingStep),
      2 ≤ g.size → pq ≠ [] →
      (∀ st ∈ pq, st.timesteps_remaining = r ∧ st.node.1 < g.size ∧ st.node.2 < g.size) →
      (∀ k, k < path.length → (path.getD k dummyStep).step = k + 1) →
      (bfsLoop recovery_rate (r + 1) g pq path path.length).length = path.length + r ∧
      ∀ k, k < (bfsLoop recovery_rate (r + 1) g pq path path.length).length →
        ((bfsLoop recovery_rate (r + 1) g pq path path.length).getD k dummyStep).step = k + 1 := by
  intro r
  induction r with
  | zero =>
    intro g pq path hsize hne hinv hsteps
    obtain ⟨s, rest, rfl⟩ : ∃ s rest, pq = s :: rest := by
      cases pq with
      | nil => exact absurd rfl hne
      | cons s rest => exact ⟨s, rest, rfl⟩
    have hmem : List.foldl pickMax s rest ∈ s :: rest := popMax_mem _ _ rfl
    have h0 : (List.foldl pickMax s rest).timesteps_remaining = 0 := (hinv _ hmem).1
    have hred : bfsLoop recovery_rate (0 + 1) g (s :: rest) path path.length = path := by
      simp only [bfsLoop, popMax]
      rw [if_pos h0]
    rw [hred]
    exact ⟨rfl, hsteps⟩
  | succ r ih =>
    intro g pq path hsize hne hinv hsteps
    obtain ⟨s, rest, rfl⟩ : ∃ s rest, pq = s :: rest := by
      cases pq with
      | nil => exact absurd rfl hne
      | cons s rest => exact ⟨s, rest, rfl⟩
    have hmem : List.foldl pickMax s rest ∈ s :: rest := popMax_mem _ _ rfl
    obtain ⟨hrem, hb1, hb2⟩ := hinv _ hmem
    set st := List.foldl pickMax s rest with hst
    set g2 := bfsStepGraph recovery_rate g st.node with hg2
    set pq2 := ((g2.get_nodes_out st.node).map (fun neighbor =>
      (⟨g2.get_score_at neighbor, st.timesteps_remaining - 1,
        neighbor⟩ : PathfindingBestFirstSearchState))) with hpq2
    set path2 := path ++ [(⟨st.node, g.get_score_at st.node,
      path.length + 1⟩ : PathfindingStep)] with hpath2
    have hred : bfsLoop recovery_rate (r + 1 + 1) g (s :: rest) path path.length =
        bfsLoop recovery_rate (r + 1) g2 pq2 path2 (path.length + 1) := by
      conv_lhs => rw [bfsLoop]
      simp only [popMax, ← hst]
      rw [if_neg (by rw [hrem]; exact Nat.succ_ne_zero r)]
    have hsize2 : 2 ≤ g2.size := by rw [hg2, size_bfsStepGraph]; exact hsize
    have hne2 : pq2 ≠ [] := by
      rw [hpq2]
      intro hcon
      have hnil : g2.get_nodes_out st.node = [] := by
        rcases List.map_eq_nil_iff.mp hcon with h
        exact h
      exact get_neighbors_ne_nil g2 st.node
        (by rw [hg2, size_bfsStepGraph]; exact hb1)
        (by rw [hg2, size_bfsStepGraph]; exact hb2)
        hsize2 hnil
    have hinv2 : ∀ st2 ∈ pq2, st2.timesteps_remaining = r ∧
        st2.node.1 < g2.size ∧ st2.node.2 < g2.size := by
      intro st2 hst2
      obtain ⟨nb, hnb, rfl⟩ := List.mem_map.mp (by rw [hpq2] at hst2; exact hst2)
      refine ⟨by simp only []; omega, ?_, ?_⟩
      · exact (mem_get_neighbors_bounds g2 st.node nb hnb).1
      · exact (mem_get_neighbors_bounds g2 st.node nb hnb).2
    have hplen : path2.length = path.length + 1 := by simp [hpath2]
    have hsteps2 : ∀ k, k < path2.length → (path2.getD k dummyStep).step = k + 1 := by
      intro k hk
      rw [hplen] at hk
      by_cases hlt : k < path.length
      · rw [hpath2, getD_append_left _ _ _ _ hlt]
        exact hsteps k hlt
      · have hkeq : k = path.length := by omega
        rw [hpath2, hkeq, getD_append_length]
    have hmain := ih g2 pq2 path2 hsize2 hne2 hinv2 hsteps2
    rw [hplen] at hmain
    rw [hred]
    exact ⟨by rw [hmain.1]; omega, hmain.2⟩

end RimorLib

/-- C4: on a grid of size at least two, for an in-bounds start cell and any
step budget and recovery rate, the greedy walker's path has exactly
`max_timesteps` steps, the step indices are contiguous starting at one, and
the result's total score is the sum of the per-step scores collected in
order. -/
theorem greedy_walker_shape (g : RimorLib.Graph) (start : Position)
    (max_timesteps recovery_rate : Nat)
    (hsize : 2 ≤ g.size) (h1 : start.1 < g.size) (h2 : start.2 < g.size)
    (hT : 1 ≤ max_timesteps) :
    (g.path_planning_bfs start max_timesteps recovery_rate).path.length = max_timesteps ∧
    (∀ k, k < (g.path_planning_bfs start max_timesteps recovery_rate).path.length →
      (((g.path_planning_bfs start max_timesteps recovery_rate).path.getD k
        RimorLib.dummyStep)).step = k + 1) ∧
    (g.path_planning_bfs start max_timesteps recovery_rate).score =
      (((g.path_planning_bfs start max_timesteps recovery_rate).path.map
        RimorLib.PathfindingStep.score)).sum := by
  have h := RimorLib.bfsLoop_shape recovery_rate max_timesteps g
    [⟨g.get_score_at start, max_timesteps, start⟩] []
    hsize (by simp) (by
      intro st hst
      rw [List.mem_singleton] at hst
      rw [hst]
      exact ⟨rfl, h1, h2⟩)
    (by intro k hk; simp at hk)
  exact ⟨by simpa [RimorLib.Graph.path_planning_bfs] using h.1,
    by simpa [RimorLib.Graph.path_planning_bfs] using h.2,
    rfl⟩

/-- The three-by-three grid of the spec's concrete scenario: rewards
row-major `[0,5,5 / 5,7,5 / 5,10,5]`, built like the `bfs.rs` test builds it
(every node holds only its score; decay and recovery fields are zero). -/
def testGrid3 : RimorLib.Graph :=
  { nodes := [[⟨0, 0, 0⟩, ⟨5, 0, 0⟩, ⟨5, 0, 0⟩],
              [⟨5, 0, 0⟩, ⟨7, 0, 0⟩, ⟨5, 0, 0⟩],
              [⟨5, 0, 0⟩, ⟨10, 0, 0⟩, ⟨5, 0, 0⟩]],
    size := 3 }

/-- Witness for C4 at the concrete three-by-three scenario grid. -/
theorem greedy_walker_shape_witness :
    2 ≤ testGrid3.size ∧ (testGrid3.path_planning_bfs (0, 0) 3 1).path.length = 3 :=
  ⟨by decide,
   (greedy_walker_shape testGrid3 (0, 0) 3 1 (by decide) (by decide) (by decide)
      (by decide)).1⟩

/-- C5: on the three-by-three grid with rewards `[0,5,5 / 5,7,5 / 5,10,5]`,
start `(0,0)`, budget three and recovery rate one, the greedy walker returns
exactly the steps `(0,0)` collecting 0, `(1,1)` collecting 8, `(2,1)`
collecting 12. -/
theorem greedy_walker_concrete_3x3 :
    testGrid3.path_planning_bfs (0, 0) 3 1 =
      ⟨[⟨(0, 0), 0, 1⟩, ⟨(1, 1), 8, 2⟩, ⟨(2, 1), 12, 3⟩]⟩ := by decide

/-- C10: with a step budget of zero the greedy walker returns the empty
result — no steps, total score zero, and in particular the start cell's
reward is never collected. -/
theorem greedy_walker_zero_budget (g : RimorLib.Graph) (start : Position)
    (recovery_rate : Nat) :
    g.path_planning_bfs start 0 recovery_rate = RimorLib.PathfindingResult.empty ∧
    (g.path_planning_bfs start 0 recovery_rate).score = 0 :=
  ⟨rfl, rfl⟩

namespace RimorApp

/-- Embeds `struct Graph` of the GUI-internal `src/pathfinding.rs`: the node
matrix plus a stored adjacency map (`HashMap<(usize,usize), Vec<(usize,usize)>>`),
embedded as an association list in insertion order. -/
structure Graph where
  nodes : List (List RimorLib.Node)
  edges : List (Position × List Position)
deriving DecidableEq

/-- Embeds `HashMap::entry(u).or_insert(Vec::new()).push(v)`. -/
def insertNeighbor : List (Position × List Position) → Position → Position →
    List (Position × List Position)
  | [], u, v => [(u, [v])]
  | (k, vs) :: rest, u, v =>
    if k = u then (k, vs ++ [v]) :: rest else (k, vs) :: insertNeighbor rest u v

/-- Embeds `Graph::add_edge`. -/
def Graph.add_edge (g : Graph) (u v : Position) : Graph :=
  { g with edges := insertNeighbor g.edges u v }

/-- Embeds `Graph::new(size)` of the GUI version: an all-zero node matrix and
the Moore adjacency recorded for every in-bounds pair, in the source's loop
order (`i`, then `j`, then the eight offsets). -/
def Graph.new (size : Nat) : Graph :=
  (List.range size).foldl (fun (g : Graph) (i : Nat) =>
    (List.range size).foldl (fun (g2 : Graph) (j : Nat) =>
      RimorLib.neighbor_offsets.foldl (fun (g3 : Graph) (d : Int × Int) =>
        if 0 ≤ (i : Int) + d.1 ∧ (i : Int) + d.1 < (size : Int) ∧
            0 ≤ (j : Int) + d.2 ∧ (j : Int) + d.2 < (size : Int) then
          g3.add_edge (i, j) (((i : Int) + d.1).toNat, ((j : Int) + d.2).toNat)
        else g3) g2) g)
    { nodes := List.replicate size (List.replicate size RimorLib.Node.new), edges := [] }

/-- Embeds `Graph::get_node_at` (and the reads through `get_node_at_mut`). -/
def Graph.get_node_at (g : Graph) (u : Position) : RimorLib.Node :=
  (g.nodes.getD u.1 []).getD u.2 RimorLib.Node.new

/-- Embeds `Graph::add_node` (also the writes through `get_node_at_mut`). -/
def Graph.add_node (g : Graph) (u : Position) (node : RimorLib.Node) : Graph :=
  { g with nodes := g.nodes.set u.1 ((g.nodes.getD u.1 []).set u.2 node) }

/-- Embeds the `size()` method (`self.nodes.len()`). -/
def Graph.gsize (g : Graph) : Nat := g.nodes.length

/-- Embeds `Graph::get_neighbors` of the GUI version: a `HashMap` lookup that
returns `None` for a cell with no recorded edges (for example any cell of a
size-one grid). -/
def Graph.get_neighbors (g : Graph) (u : Position) : Option (List Position) :=
  List.lookup u g.edges

/-- Embeds `Graph::recover_for` of the GUI version, which mutates `self` in
place: the returned graph is the mutated one. -/
def Graph.recover_for (g : Graph) (recovery_rate : Nat) (except : Position) : Graph :=
  { g with nodes := mapIdxFrom (fun i row => mapIdxFrom (fun j n =>
      if i < g.gsize ∧ j < g.gsize ∧ (i, j) ≠ except then
        { n with score := n.score + recovery_rate } else n) 0 row) 0 g.nodes }

/-- Embeds `struct PathfindingStep` of the GUI version (no step index). -/
structure PathfindingStep where
  node : Position
  score : Nat
deriving DecidableEq

/-- Embeds `struct PathfindingResult` of the GUI version (accumulated total
score plus the path). -/
structure PathfindingResult where
  score : Nat
  path : List PathfindingStep
deriving DecidableEq

/-- Embeds `struct PathfindingState` of the GUI version. -/
structure PathfindingState where
  score : Nat
  timesteps_remaining : Nat
  node : Position
deriving DecidableEq

/-- One fold step of the heap pop: keep the running maximum and collect the
rest. -/
def popPick (pr : PathfindingState × List PathfindingState) (x : PathfindingState) :
    PathfindingState × List PathfindingState :=
  if pr.1.score < x.score then (x, pr.1 :: pr.2) else (pr.1, x :: pr.2)

/-- Embeds `BinaryHeap::pop` for the GUI walker. Unlike the crate walker, the
GUI loop does not clear the queue when `get_neighbors` returns `None`, so the
remainder of the queue matters and is returned. -/
def popMaxWithRest (pq : List PathfindingState) :
    Option (PathfindingState × List PathfindingState) :=
  match pq with
  | [] => none
  | s :: rest => some (List.foldl popPick (s, []) rest)

/-- Embeds the loop of the GUI `Graph::path_planning_bfs`, which runs on
`&mut self`: the graph is threaded through and returned so the caller's grid
after the call can be observed. `fuel` drives the recursion;
`path_planning_bfs` passes an ample bound (each iteration either lowers the
common `timesteps_remaining` of the refilled queue, whose length is at most
nine, or shortens the queue). -/
def bfsLoopA (recovery_rate : Nat) :
    Nat → Graph → List PathfindingState → List PathfindingStep → Nat →
      (List PathfindingStep × Nat × Graph)
  | 0, g, _, path, score => (path, score, g)
  | fuel + 1, g, pq, path, score =>
    match popMaxWithRest pq with
    | none => (path, score, g)
    | some (state, rest) =>
      if state.timesteps_remaining = 0 then (path, score, g)
      else
        let nodeScore := (g.get_node_at state.node).score
        let g2 := (g.add_node state.node
          { g.get_node_at state.node with score := 0 }).recover_for recovery_rate state.node
        match g2.get_neighbors state.node with
        | some neighbors =>
            bfsLoopA recovery_rate fuel g2
              (neighbors.map (fun nb =>
                ⟨(g2.get_node_at nb).score, state.timesteps_remaining - 1, nb⟩))
              (path ++ [⟨state.node, nodeScore⟩]) (score + nodeScore)
        | none =>
            bfsLoopA recovery_rate fuel g2 rest
              (path ++ [⟨state.node, nodeScore⟩]) (score + nodeScore)

/-- Embeds the GUI `Graph::path_planning_bfs(&mut self, ...)`: returns the
result together with the caller's grid as the call leaves it. -/
def Graph.path_planning_bfs (g : Graph) (start : Position)
    (max_timesteps recovery_rate : Nat) : PathfindingResult × Graph :=
  let r := bfsLoopA recovery_rate (9 * (max_timesteps + 1) + 1) g
    [⟨(g.get_node_at start).score, max_timesteps, start⟩] [] 0
  (⟨r.2.1, r.1⟩, r.2.2)

/-- A concrete two-by-two grid (scores `[[0,5],[1,3]]`) used to observe the
GUI walker's effect on the caller's grid. -/
def gDemo : Graph :=
  (((Graph.new 2).add_node (0, 1) ⟨5, 0, 0⟩).add_node (1, 0) ⟨1, 0, 0⟩).add_node
    (1, 1) ⟨3, 0, 0⟩

end RimorApp

/-- C2: the GUI entry point `path_planning_bfs` of `src/pathfinding.rs` does
not leave the caller's grid unchanged: on the two-by-two demo grid with one
step and recovery rate one, after the call the caller's grid holds 6 at cell
`(0,1)` where it held 5 before the call (the walk zeroed the visited cell and
recovered every other cell in place). -/
theorem gui_bfs_mutates_caller_grid :
    ((RimorApp.gDemo.path_planning_bfs (0, 0) 1 1).2.get_node_at (0, 1)).score = 6 ∧
    (RimorApp.gDemo.get_node_at (0, 1)).score = 5 := by decide

namespace RimorApp

/-- Embeds the constraint system `Graph::path_planning_lp` hands to the
solver, as a satisfaction predicate over rational-valued assignments to the
four variable cubes (`x` move, `v` visit, `s` score, `z` collected; `x` and
`v` are declared binary, `s` and `z` are free solver variables). Each
conjunct is one `add_constraint` call of the source (plus the binary domains
the `variable().binary()` declarations impose), for the grid bound
`self.size()` and the horizon `0..max_timesteps`. The neighbour constraint is
only added when the adjacency map has an entry for the cell, exactly like the
source's `match self.get_neighbors((i, j))`. -/
def lpTimeSat (g : Graph) (start : Position) (T : Nat) (rate : ℚ)
    (x v s z : Nat → Nat → Nat → ℚ) : Prop :=
  (∀ i, i < g.gsize → ∀ j, j < g.gsize → ∀ t, t < T →
    (x i j t = 0 ∨ x i j t = 1) ∧ (v i j t = 0 ∨ v i j t = 1)) ∧
  x start.1 start.2 0 = 1 ∧
  (∀ i, i < g.gsize → ∀ j, j < g.gsize →
    s i j 0 = ((g.get_node_at (i, j)).score : ℚ)) ∧
  (∀ t, t < T → 1 ≤ t → ∀ i, i < g.gsize → ∀ j, j < g.gsize →
    (s i j (t - 1) + rate * (1 - v i j t) = s i j t) ∧
    (s i j (t - 1) ≤ ((g.get_node_at (i, j)).score : ℚ)) ∧
    ((g.get_neighbors (i, j)).isSome →
      v i j t = (((g.get_neighbors (i, j)).getD []).map
        (fun nb => x nb.1 nb.2 (t - 1))).sum) ∧
    (z i j t ≤ s i j t) ∧
    (z i j t ≤ v i j t * ((g.get_node_at (i, j)).score : ℚ)) ∧
    (z i j t ≤ s i j t - (1 - v i j t) * ((g.get_node_at (i, j)).score : ℚ)) ∧
    0 ≤ z i j t)

set_option synthInstance.maxSize 1024 in
instance (g : Graph) (start : Position) (T : Nat) (rate : ℚ)
    (x v s z : Nat → Nat → Nat → ℚ) :
    Decidable (lpTimeSat g start T rate x v s z) := by
  unfold lpTimeSat
  infer_instance

/-- A concrete two-by-two grid with every score five, used to exhibit
satisfying assignments of the time-indexed constraint system. -/
def gLP : Graph :=
  ((((Graph.new 2).add_node (0, 0) ⟨5, 0, 0⟩).add_node (0, 1) ⟨5, 0, 0⟩).add_node
    (1, 0) ⟨5, 0, 0⟩).add_node (1, 1) ⟨5, 0, 0⟩

/-- A satisfying move assignment on `gLP`: depart the start at time zero. -/
def xA : Nat → Nat → Nat → ℚ := fun i j t => if i = 0 ∧ j = 0 ∧ t = 0 then 1 else 0

/-- The visit assignment the constraints derive from `xA`: at time one every
neighbour of the start is visited. -/
def vA : Nat → Nat → Nat → ℚ := fun i j t => if t = 1 ∧ ¬(i = 0 ∧ j = 0) then 1 else 0

/-- The score assignment the recurrence forces from `xA`/`vA`: a visited cell
keeps its score, an unvisited cell gains the rate. -/
def sA : Nat → Nat → Nat → ℚ := fun i j t =>
  if t = 0 then 5 else if i = 0 ∧ j = 0 then 6 else 5

/-- A collected-reward assignment of all zeroes. -/
def zA : Nat → Nat → Nat → ℚ := fun _ _ _ => 0

theorem gLP_score_eq (i j : Nat) (hi : i < 2) (hj : j < 2) :
    (gLP.get_node_at (i, j)).score = 5 := by
  interval_cases i <;> interval_cases j <;> rfl

theorem gLP_neighbors_00 : gLP.get_neighbors (0, 0) = some [(0, 1), (1, 0), (1, 1)] := by
  decide

theorem gLP_neighbors_01 : gLP.get_neighbors (0, 1) = some [(0, 0), (1, 0), (1, 1)] := by
  decide

theorem gLP_neighbors_10 : gLP.get_neighbors (1, 0) = some [(0, 0), (0, 1), (1, 1)] := by
  decide

theorem gLP_neighbors_11 : gLP.get_neighbors (1, 1) = some [(0, 0), (0, 1), (1, 0)] := by
  decide

/-- The exhibited assignment satisfies every constraint `path_planning_lp`
builds on `gLP` with start `(0,0)`, budget 2 and rate 1. -/
theorem lpTimeSat_gLP :
    lpTimeSat gLP (0, 0) 2 1 xA vA sA zA := by
  have hsize : gLP.gsize = 2 := rfl
  refine ⟨?_, ?_, ?_, ?_⟩
  · intro i hi j hj t ht
    rw [hsize] at hi hj
    interval_cases i <;> interval_cases j <;> interval_cases t <;>
      norm_num [xA, vA]
  · norm_num [xA]
  · intro i hi j hj
    rw [hsize] at hi hj
    rw [gLP_score_eq i j hi hj]
    interval_cases i <;> interval_cases j <;> norm_num [sA]
  · intro t ht ht1 i hi j hj
    rw [hsize] at hi hj
    have ht2 : t = 1 := by omega
    subst ht2
    rw [gLP_score_eq i j hi hj]
    interval_cases i <;> interval_cases j <;>
      simp only [gLP_neighbors_00, gLP_neighbors_01, gLP_neighbors_10, gLP_neighbors_11] <;>
      norm_num [xA, vA, sA, zA]

end RimorApp

/-- Counterexample to C3 as stated: the time-indexed constraint system does
not reset a visited cell's modeled score. The exhibited assignment satisfies
every constraint of `path_planning_lp` on the two-by-two grid `gLP` with
budget 2 and rate 1, visits cell `(0,1)` at time 1 (`vA 0 1 1 = 1`), yet its
modeled score stays at 5 instead of resetting to 0: the recurrence
`score[t] = score[t-1] + rate·(1 − visit[t])` keeps a visited cell's score
unchanged, which is not the Reward Grid dynamics (where a visit zeroes the
cell). -/
theorem time_indexed_no_reset_on_visit :
    RimorApp.lpTimeSat RimorApp.gLP (0, 0) 2 1 RimorApp.xA RimorApp.vA RimorApp.sA
      RimorApp.zA ∧
    RimorApp.vA 0 1 1 = 1 ∧ RimorApp.sA 0 1 1 = 5 ∧ RimorApp.sA 0 1 0 = 5 :=
  ⟨RimorApp.lpTimeSat_gLP, by norm_num [RimorApp.vA], by norm_num [RimorApp.sA],
   by norm_num [RimorApp.sA]⟩

/-- C3 (amended): in the time-indexed constraint system, every satisfying
assignment obeys, for every in-bounds cell and every timestep `1 ≤ t < T`,
the recurrence `score[i,j,t] = score[i,j,t-1] + rate·(1 − visit[i,j,t])` — the
cell recovers by the rate when not visited and keeps its previous score (is
not reset) when visited — and additionally the separate cap constraint
`score[i,j,t-1] ≤ static_reward(i,j)` bounds the score variables. -/
theorem time_indexed_score_recurrence (g : RimorApp.Graph) (start : Position)
    (T : Nat) (rate : ℚ) (x v s z : Nat → Nat → Nat → ℚ)
    (hsat : RimorApp.lpTimeSat g start T rate x v s z)
    (i j t : Nat) (hi : i < g.gsize) (hj : j < g.gsize) (ht1 : 1 ≤ t) (ht : t < T) :
    s i j t = s i j (t - 1) + rate * (1 - v i j t) ∧
    s i j (t - 1) ≤ ((g.get_node_at (i, j)).score : ℚ) := by
  obtain ⟨-, -, -, h4⟩ := hsat
  have h := h4 t ht ht1 i hi j hj
  exact ⟨h.1.symm, h.2.1⟩

namespace RimorLib

/-- Models `str::split(" ")` (and, for the line separator, the splitting part
of `str::lines`) on byte lists: split at every occurrence of `sep`, keeping
empty pieces; the empty input yields one empty piece. -/
def splitOnByte (sep : Nat) : List Nat → List (List Nat)
  | [] => [[]]
  | b :: rest =>
    if b = sep then [] :: splitOnByte sep rest
    else
      match splitOnByte sep rest with
      | [] => [[b]]
      | t :: ts => (b :: t) :: ts

/-- Models `str::lines` on byte lists: no lines for the empty input, split at
byte 10 otherwise, the final line ending optional (a trailing empty piece is
dropped). Carriage-return stripping is not modelled; the grid format contains
only digits, spaces and newlines. -/
def rustLines (bs : List Nat) : List (List Nat) :=
  match bs with
  | [] => []
  | _ =>
    if (splitOnByte 10 bs).getLast? = some [] then (splitOnByte 10 bs).dropLast
    else splitOnByte 10 bs

/-- The decimal value of a digit-byte list, most significant first. -/
def digitsVal (cs : List Nat) : Nat :=
  cs.foldl (fun acc b => acc * 10 + (b - 48)) 0

/-- Models `str::parse::<u32>()` on byte lists: the input must be non-empty,
all ASCII digits, and denote a value below `2^32` (Rust also accepts a
leading `+`, which the grid format never contains). `none` models the parse
error, which `from_bytes` turns into a panic via `expect`. -/
def parseU32 (cs : List Nat) : Option Nat :=
  if cs ≠ [] ∧ cs.all (fun b => decide (48 ≤ b ∧ b ≤ 57)) then
    if digitsVal cs < 4294967296 then some (digitsVal cs) else none
  else none

/-- Embeds the inner loop of `Graph::from_bytes`: parse each token of one
line and store it at `(i, j)` with `add_node`, `j` counting up from zero.
`none` models a panic: a failed integer parse, or the out-of-bounds `Vec`
index `self.nodes[i][j]` that a non-square input reaches. -/
def setRow : Graph → Nat → Nat → List (List Nat) → Option Graph
  | g, _, _, [] => some g
  | g, i, j, c :: rest =>
    match parseU32 c with
    | none => none
    | some sc =>
      if i < g.nodes.length ∧ j < (g.nodes.getD i []).length then
        setRow (g.add_node (i, j) ⟨sc, 0, 0⟩) i (j + 1) rest
      else none

/-- Embeds the outer loop of `Graph::from_bytes`: one line per row, `i`
counting up from zero. -/
def loadRows : Graph → Nat → List (List Nat) → Option Graph
  | g, _, [] => some g
  | g, i, l :: rest =>
    match setRow g i 0 (splitOnByte 32 l) with
    | none => none
    | some g2 => loadRows g2 (i + 1) rest

/-- Embeds `Graph::from_bytes`: count the lines, allocate a square grid of
that size, then fill it cell by cell. `none` models the panics of the
original (`expect` on a failed parse, out-of-bounds indexing). -/
def from_bytes (bs : List Nat) : Option Graph :=
  loadRows (Graph.new (rustLines bs).length) 0 (rustLines bs)

/-- Fuel-driven decimal rendering; `natBytes` passes ample fuel (the fuel
drops by one per emitted digit and the value shrinks tenfold each step). -/
def natBytesAux : Nat → Nat → List Nat
  | 0, _ => []
  | fuel + 1, n => if n < 10 then [48 + n] else natBytesAux fuel (n / 10) ++ [48 + n % 10]

/-- Modelled from the spec: the decimal rendering of one grid value in the
text form (§6), as ASCII digit bytes. -/
def natBytes (n : Nat) : List Nat := natBytesAux (n + 1) n

/-- Join byte-list pieces with a separator byte. -/
def joinSep (sep : Nat) : List (List Nat) → List Nat
  | [] => []
  | [x] => x
  | x :: y :: rest => x ++ sep :: joinSep sep (y :: rest)

/-- Modelled from the spec: one row of the text form, the values separated by
single spaces (byte 32). -/
def encodeRow (row : List Nat) : List Nat := joinSep 32 (row.map natBytes)

/-- Modelled from the spec: the whole text form, one row per line (byte 10),
no trailing newline. -/
def encodeGrid (m : List (List Nat)) : List Nat := joinSep 10 (m.map encodeRow)

theorem joinSep_cons_cons (sep : Nat) (x y : List Nat) (rest : List (List Nat)) :
    joinSep sep (x :: y :: rest) = x ++ sep :: joinSep sep (y :: rest) := rfl

theorem splitOnByte_ne_nil (sep : Nat) : ∀ (bs : List Nat), splitOnByte sep bs ≠ [] := by
  intro bs
  induction bs with
  | nil => simp [splitOnByte]
  | cons b rest ih =>
    by_cases h : b = sep
    · simp [splitOnByte, h]
    · simp only [splitOnByte, if_neg h]
      match hsplit : splitOnByte sep rest with
      | [] => simp
      | t :: ts => simp

theorem splitOnByte_append (sep : Nat) :
    ∀ (p bs : List Nat), sep ∉ p →
      splitOnByte sep (p ++ bs) =
        (p ++ (splitOnByte sep bs).headI) :: (splitOnByte sep bs).tail := by
  intro p
  induction p with
  | nil =>
    intro bs _
    match hsplit : splitOnByte sep bs with
    | [] => exact absurd hsplit (splitOnByte_ne_nil sep bs)
    | t :: ts => simp
  | cons b p ih =>
    intro bs hmem
    have hb : ¬b = sep := fun h => hmem (by rw [h]; exact List.mem_cons_self _ _)
    have hrest : sep ∉ p := fun h => hmem (List.mem_cons_of_mem _ h)
    simp only [List.cons_append, splitOnByte, if_neg hb, List.append_eq]
    rw [ih bs hrest]

theorem splitOnByte_cons_sep (sep : Nat) (bs : List Nat) :
    splitOnByte sep (sep :: bs) = [] :: splitOnByte sep bs := by
  simp [splitOnByte]

theorem splitOnByte_joinSep (sep : Nat) :
    ∀ (pieces : List (List Nat)), pieces ≠ [] → (∀ p ∈ pieces, sep ∉ p) →
      splitOnByte sep (joinSep sep pieces) = pieces := by
  intro pieces
  induction pieces with
  | nil => intro h; exact absurd rfl h
  | cons x rest ih =>
    intro _ hall
    match rest, ih with
    | [], _ =>
      have := splitOnByte_append sep x [] (hall x (List.mem_cons_self _ _))
      simpa [joinSep, splitOnByte] using this
    | y :: rest2, ih =>
      rw [joinSep_cons_cons,
        splitOnByte_append sep x _ (hall x (List.mem_cons_self _ _)),
        splitOnByte_cons_sep,
        ih (by simp) (fun p hp => hall p (List.mem_cons_of_mem _ hp))]
      simp

theorem joinSep_ne_nil (sep : Nat) (pieces : List (List Nat)) (hne : pieces ≠ [])
    (hall : ∀ p ∈ pieces, p ≠ []) : joinSep sep pieces ≠ [] := by
  match pieces with
  | [] => exact absurd rfl hne
  | [x] => exact hall x (List.mem_cons_self _ _)
  | x :: y :: rest =>
    rw [joinSep_cons_cons]
    intro hcon
    exact absurd (List.append_eq_nil.mp hcon).2 (by simp)

theorem mem_joinSep (sep : Nat) :
    ∀ (pieces : List (List Nat)) (b : Nat), b ∈ joinSep sep pieces →
      b = sep ∨ ∃ p ∈ pieces, b ∈ p := by
  intro pieces
  induction pieces with
  | nil => intro b h; simp [joinSep] at h
  | cons x rest ih =>
    intro b h
    match rest, ih, h with
    | [], _, h => exact Or.inr ⟨x, List.mem_cons_self _ _, h⟩
    | y :: rest2, ih, h =>
      rw [joinSep_cons_cons] at h
      rcases List.mem_append.mp h with h | h
      · exact Or.inr ⟨x, List.mem_cons_self _ _, h⟩
      · rcases List.mem_cons.mp h with h | h
        · exact Or.inl h
        · rcases ih b h with h | ⟨p, hp, hbp⟩
          · exact Or.inl h
          · exact Or.inr ⟨p, List.mem_cons_of_mem _ hp, hbp⟩

theorem natBytesAux_fuel :
    ∀ (f1 : Nat), ∀ (n f2 : Nat), n < f1 → n < f2 →
      natBytesAux f1 n = natBytesAux f2 n := by
  intro f1
  induction f1 with
  | zero => intro n f2 h1 _; omega
  | succ f1 ih =>
    intro n f2 h1 h2
    match f2, h2 with
    | f2 + 1, h2 =>
      by_cases h : n < 10
      · simp [natBytesAux, h]
      · have hpos : 0 < n := by omega
        have hdiv : n / 10 < n := Nat.div_lt_self hpos (by norm_num)
        simp only [natBytesAux, if_neg h]
        rw [ih (n / 10) f2 (by omega) (by omega)]

theorem natBytes_eq (n : Nat) :
    natBytes n = if n < 10 then [48 + n] else natBytes (n / 10) ++ [48 + n % 10] := by
  by_cases h : n < 10
  · rw [if_pos h]
    simp [natBytes, natBytesAux, h]
  · have hpos : 0 < n := by omega
    have hdiv : n / 10 < n := Nat.div_lt_self hpos (by norm_num)
    rw [if_neg h]
    show natBytesAux (n + 1) n = _
    rw [show natBytesAux (n + 1) n = natBytesAux n (n / 10) ++ [48 + n % 10] by
      simp [natBytesAux, h]]
    rw [natBytesAux_fuel n (n / 10) (n / 10 + 1) (by omega) (by omega)]
    rfl

theorem natBytes_digits (n : Nat) : ∀ b ∈ natBytes n, 48 ≤ b ∧ b ≤ 57 := by
  induction n using Nat.strong_induction_on with
  | _ n ih =>
    intro b hb
    rw [natBytes_eq] at hb
    by_cases h : n < 10
    · rw [if_pos h] at hb
      rcases List.mem_singleton.mp hb with rfl
      omega
    · rw [if_neg h] at hb
      rcases List.mem_append.mp hb with hb | hb
      · exact ih (n / 10) (Nat.div_lt_self (by omega) (by norm_num)) b hb
      · rcases List.mem_singleton.mp hb with rfl
        have := Nat.mod_lt n (show 0 < 10 by norm_num)
        omega

theorem natBytes_ne_nil (n : Nat) : natBytes n ≠ [] := by
  rw [natBytes_eq]
  by_cases h : n < 10
  · simp [h]
  · simp [h]

theorem digitsVal_append (l : List Nat) (b : Nat) :
    digitsVal (l ++ [b]) = digitsVal l * 10 + (b - 48) := by
  simp [digitsVal, List.foldl_append]

theorem digitsVal_natBytes (n : Nat) : digitsVal (natBytes n) = n := by
  induction n using Nat.strong_induction_on with
  | _ n ih =>
    rw [natBytes_eq]
    by_cases h : n < 10
    · rw [if_pos h]
      simp [digitsVal]
    · rw [if_neg h, digitsVal_append,
        ih (n / 10) (Nat.div_lt_self (by omega) (by norm_num))]
      omega

theorem parseU32_natBytes (n : Nat) (hn : n < 4294967296) :
    parseU32 (natBytes n) = some n := by
  unfold parseU32
  rw [if_pos ⟨natBytes_ne_nil n, by
    rw [List.all_eq_true]
    intro b hb
    exact decide_eq_true (natBytes_digits n b hb)⟩]
  rw [digitsVal_natBytes, if_pos hn]

theorem WF_add_node (g : Graph) (u : Position) (node : Node) (hwf : g.WF)
    (hu : u.1 < g.nodes.length) : (g.add_node u node).WF := by
  obtain ⟨hlen, hrows⟩ := hwf
  constructor
  · simp [Graph.add_node, hlen]
  · intro row hrow
    simp only [Graph.add_node] at hrow
    rcases List.mem_or_eq_of_mem_set hrow with h | h
    · exact hrows _ h
    · rw [h, List.length_set]
      exact hrows _ (getD_mem _ _ _ hu)

theorem setRow_spec (n : Nat) :
    ∀ (row : List Nat) (g : Graph) (i j0 : Nat),
      Graph.WF g → g.size = n → i < n → j0 + row.length ≤ n →
      (∀ x ∈ row, x < 4294967296) →
      ∃ g2, setRow g i j0 (row.map natBytes) = some g2 ∧ Graph.WF g2 ∧ g2.size = n ∧
        (∀ p : Position, (p.1 ≠ i ∨ p.2 < j0) → g2.get_node_at p = g.get_node_at p) ∧
        (∀ k, k < row.length → (g2.get_node_at (i, j0 + k)).score = row.getD k 0) := by
  intro row
  induction row with
  | nil =>
    intro g i j0 hwf hsz _ _ _
    exact ⟨g, rfl, hwf, hsz, fun p _ => rfl, fun k hk => absurd hk (by simp)⟩
  | cons x xs ih =>
    intro g i j0 hwf hsz hi hj hb
    have hx : x < 4294967296 := hb x (List.mem_cons_self _ _)
    have hj' : j0 + xs.length + 1 ≤ n := by
      simp only [List.length_cons] at hj
      omega
    have hlen : g.nodes.length = n := by rw [hwf.1, hsz]
    have hrowlen : (g.nodes.getD i []).length = n := by
      rw [hwf.2 _ (getD_mem _ _ _ (by omega)), hsz]
    have hguard : i < g.nodes.length ∧ j0 < (g.nodes.getD i []).length :=
      ⟨by omega, by omega⟩
    have hred : setRow g i j0 ((x :: xs).map natBytes) =
        setRow (g.add_node (i, j0) ⟨x, 0, 0⟩) i (j0 + 1) (xs.map natBytes) := by
      simp only [List.map_cons, setRow, parseU32_natBytes x hx]
      rw [if_pos hguard]
    obtain ⟨g2, hg2, hwf2, hsz2, hunch, hval⟩ :=
      ih (g.add_node (i, j0) ⟨x, 0, 0⟩) i (j0 + 1)
        (WF_add_node g _ _ hwf (by omega)) hsz hi (by omega)
        (fun y hy => hb y (List.mem_cons_of_mem _ hy))
    have hnode : ∀ p : Position,
        (g.add_node (i, j0) ⟨x, 0, 0⟩).get_node_at p =
          if p = (i, j0) then ⟨x, 0, 0⟩ else g.get_node_at p :=
      fun p => get_node_at_add_node g (i, j0) _ p hguard.1 hguard.2
    refine ⟨g2, by rw [hred]; exact hg2, hwf2, hsz2, ?_, ?_⟩
    · intro p hp
      have hp' : p.1 ≠ i ∨ p.2 < j0 + 1 := by
        rcases hp with h | h
        · exact Or.inl h
        · exact Or.inr (by omega)
      rw [hunch p hp', hnode p, if_neg ?hne]
      case hne =>
        intro hcon
        rcases hp with h | h
        · exact h (by rw [hcon])
        · rw [hcon] at h
          omega
    · intro k hk
      cases k with
      | zero =>
        rw [Nat.add_zero, hunch (i, j0) (Or.inr (by omega)), hnode (i, j0), if_pos rfl]
        rfl
      | succ k =>
        have hk' : k < xs.length := by
          simp only [List.length_cons] at hk
          omega
        have := hval k hk'
        rw [show j0 + (k + 1) = j0 + 1 + k by omega]
        rw [this]
        simp

theorem mem_encodeRow (row : List Nat) (b : Nat) (hb : b ∈ encodeRow row) :
    b = 32 ∨ (48 ≤ b ∧ b ≤ 57) := by
  rcases mem_joinSep 32 _ b hb with h | ⟨p, hp, hbp⟩
  · exact Or.inl h
  · obtain ⟨v, _, rfl⟩ := List.mem_map.mp hp
    exact Or.inr (natBytes_digits v b hbp)

theorem encodeRow_ne_nil (row : List Nat) (hrow : row ≠ []) : encodeRow row ≠ [] := by
  apply joinSep_ne_nil
  · simpa using hrow
  · intro p hp
    obtain ⟨v, _, rfl⟩ := List.mem_map.mp hp
    exact natBytes_ne_nil v

theorem splitOnByte_encodeRow (row : List Nat) (hrow : row ≠ []) :
    splitOnByte 32 (encodeRow row) = row.map natBytes := by
  apply splitOnByte_joinSep
  · simpa using hrow
  · intro p hp hmem
    obtain ⟨v, _, rfl⟩ := List.mem_map.mp hp
    have := natBytes_digits v 32 hmem
    omega

theorem mem_of_getLast?_eq {α : Type _} :
    ∀ (l : List α) (a : α), l.getLast? = some a → a ∈ l := by
  intro l
  induction l with
  | nil => intro a h; simp at h
  | cons x xs ih =>
    intro a h
    cases xs with
    | nil =>
      simp only [List.getLast?_singleton, Option.some.injEq] at h
      rw [h]
      exact List.mem_cons_self _ _
    | cons y ys =>
      rw [List.getLast?_cons_cons] at h
      exact List.mem_cons_of_mem _ (ih a h)

theorem rustLines_encodeGrid (m : List (List Nat)) (hne : m ≠ [])
    (hrows : ∀ row ∈ m, row ≠ []) :
    rustLines (encodeGrid m) = m.map encodeRow := by
  have hpieces_ne : m.map encodeRow ≠ [] := by simpa using hne
  have hall_ne : ∀ p ∈ m.map encodeRow, p ≠ [] := by
    intro p hp
    obtain ⟨row, hrow, rfl⟩ := List.mem_map.mp hp
    exact encodeRow_ne_nil row (hrows row hrow)
  have hnosep : ∀ p ∈ m.map encodeRow, (10 : Nat) ∉ p := by
    intro p hp hmem
    obtain ⟨row, hrow, rfl⟩ := List.mem_map.mp hp
    rcases mem_encodeRow row 10 hmem with h | h <;> omega
  have hsplit : splitOnByte 10 (encodeGrid m) = m.map encodeRow :=
    splitOnByte_joinSep 10 _ hpieces_ne hnosep
  have hbs_ne : encodeGrid m ≠ [] := joinSep_ne_nil 10 _ hpieces_ne hall_ne
  obtain ⟨b, bs, hbs⟩ : ∃ b bs, encodeGrid m = b :: bs := by
    cases hcase : encodeGrid m with
    | nil => exact absurd hcase hbs_ne
    | cons b bs => exact ⟨b, bs, rfl⟩
  rw [hbs] at hsplit ⊢
  show (if (splitOnByte 10 (b :: bs)).getLast? = some [] then
      (splitOnByte 10 (b :: bs)).dropLast else splitOnByte 10 (b :: bs)) = m.map encodeRow
  rw [hsplit, if_neg ?hlast]
  case hlast =>
    intro hcon
    exact hall_ne [] (mem_of_getLast?_eq _ _ hcon) rfl

theorem loadRows_spec (n : Nat) :
    ∀ (rows : List (List Nat)) (g : Graph) (i0 : Nat),
      Graph.WF g → g.size = n → i0 + rows.length ≤ n →
      (∀ row ∈ rows, row.length = n) →
      (∀ row ∈ rows, ∀ x ∈ row, x < 4294967296) →
      ∃ g2, loadRows g i0 (rows.map encodeRow) = some g2 ∧ Graph.WF g2 ∧ g2.size = n ∧
        (∀ p : Position, p.1 < i0 → g2.get_node_at p = g.get_node_at p) ∧
        (∀ k, k < rows.length → ∀ j, j < n →
          (g2.get_node_at (i0 + k, j)).score = (rows.getD k []).getD j 0) := by
  intro rows
  induction rows with
  | nil =>
    intro g i0 hwf hsz _ _ _
    exact ⟨g, rfl, hwf, hsz, fun p _ => rfl, fun k hk => absurd hk (by simp)⟩
  | cons row rest ih =>
    intro g i0 hwf hsz hlen hrows hb
    have hrlen : row.length = n := hrows row (List.mem_cons_self _ _)
    have hlen' : i0 + rest.length + 1 ≤ n := by
      simp only [List.length_cons] at hlen
      omega
    have hrow_ne : row ≠ [] := by
      intro hcon
      rw [hcon] at hrlen
      simp at hrlen
      omega
    obtain ⟨g1, hsetrow, hwf1, hsz1, hunch1, hval1⟩ :=
      setRow_spec n row g i0 0 hwf hsz (by omega) (by omega)
        (hb row (List.mem_cons_self _ _))
    obtain ⟨g2, hload, hwf2, hsz2, hunch2, hval2⟩ :=
      ih g1 (i0 + 1) hwf1 hsz1 (by omega)
        (fun r hr => hrows r (List.mem_cons_of_mem _ hr))
        (fun r hr => hb r (List.mem_cons_of_mem _ hr))
    refine ⟨g2, ?_, hwf2, hsz2, ?_, ?_⟩
    · have hred : loadRows g i0 ((row :: rest).map encodeRow) =
          loadRows g1 (i0 + 1) (rest.map encodeRow) := by
        simp only [List.map_cons, loadRows, splitOnByte_encodeRow row hrow_ne, hsetrow]
      rw [hred]
      exact hload
    · intro p hp
      rw [hunch2 p (by omega), hunch1 p (Or.inl (by omega))]
    · intro k hk j hj
      cases k with
      | zero =>
        rw [Nat.add_zero, hunch2 (i0, j) (by omega)]
        have := hval1 j (by omega)
        rw [Nat.zero_add] at this
        rw [this]
        rfl
      | succ k =>
        have hk' : k < rest.length := by
          simp only [List.length_cons] at hk
          omega
        have := hval2 k hk' j hj
        rw [show i0 + (k + 1) = i0 + 1 + k by omega]
        rw [this]
        simp

end RimorLib

/-- C9 (amended): loading a square whitespace-separated text encoding of a
grid of non-negative integers below `2^32` (the `u32` range the loader parses
into) and reading back every cell's value reproduces the original integers
exactly. -/
theorem from_bytes_round_trip (m : List (List Nat))
    (hsq : ∀ row ∈ m, row.length = m.length)
    (hbound : ∀ row ∈ m, ∀ x ∈ row, x < 4294967296) :
    ∃ g, RimorLib.from_bytes (RimorLib.encodeGrid m) = some g ∧
      ∀ i, i < m.length → ∀ j, j < m.length →
        (g.get_node_at (i, j)).score = (m.getD i []).getD j 0 := by
  rcases m with _ | ⟨r, rest⟩
  · exact ⟨RimorLib.Graph.new 0, rfl, by intro i hi; simp at hi⟩
  · have hrows_ne : ∀ row ∈ r :: rest, row ≠ [] := by
      intro row hrow hcon
      have := hsq row hrow
      rw [hcon] at this
      simp at this
    have hlines : RimorLib.rustLines (RimorLib.encodeGrid (r :: rest)) =
        (r :: rest).map RimorLib.encodeRow :=
      RimorLib.rustLines_encodeGrid _ (by simp) hrows_ne
    obtain ⟨g2, hload, _, _, _, hvals⟩ :=
      RimorLib.loadRows_spec (r :: rest).length (r :: rest)
        (RimorLib.Graph.new (r :: rest).length) 0 (RimorLib.WF_new _) rfl
        (by omega) hsq hbound
    refine ⟨g2, ?_, ?_⟩
    · unfold RimorLib.from_bytes
      rw [hlines, List.length_map]
      exact hload
    · intro i hi j hj
      have := hvals i hi j hj
      rwa [Nat.zero_add] at this

/-- Counterexample to C9 as stated: for the one-by-one grid holding the
integer `2^32`, the loader's `parse::<u32>` fails (a panic via `expect`,
modelled as `none`), so the construction produces no grid to read back — the
claim's round trip does not hold for arbitrary non-negative integers. -/
theorem from_bytes_overflow_not_round_trip :
    RimorLib.from_bytes (RimorLib.encodeGrid [[4294967296]]) = none := by decide

/-- Witness for C9 at a concrete two-by-two grid. -/
theorem from_bytes_round_trip_witness :
    (∀ row ∈ [[0, 5], [7, 9]], List.length row = 2) ∧
      ∃ g, RimorLib.from_bytes (RimorLib.encodeGrid [[0, 5], [7, 9]]) = some g ∧
        ∀ i, i < List.length [[0, 5], [7, 9]] → ∀ j, j < List.length [[0, 5], [7, 9]] →
          (g.get_node_at (i, j)).score = (List.getD [[0, 5], [7, 9]] i []).getD j 0 :=
  ⟨by decide, from_bytes_round_trip [[0, 5], [7, 9]] (by decide) (by decide)⟩

namespace RimorLib

/-- Embeds `struct Edge` of `lp.rs`; the Rust field names are `from`/`to`
(`from` is a Lean keyword, hence `efrom`/`eto`). -/
structure Edge where
  efrom : Position
  eto : Position
deriving DecidableEq

/-- Embeds `Edge::get_edges_out`: the outgoing edges of a cell. -/
def edgesOutOf (g : Graph) (pos : Position) : List Edge :=
  (g.get_nodes_out pos).map (fun n => ⟨pos, n⟩)

/-- Embeds `Edge::get_edges_in`: the incoming edges of a cell. -/
def edgesInOf (g : Graph) (pos : Position) : List Edge :=
  (g.get_edges_in pos).map (fun n => ⟨n, pos⟩)

/-- Embeds `HashSet::insert` for the edge set, as a duplicate-free list in
insertion order. -/
def insertEdge (l : List Edge) (e : Edge) : List Edge :=
  if e ∈ l then l else l ++ [e]

/-- Embeds `HashSet::insert` for the touched-node set. -/
def insertNode (l : List Position) (p : Position) : List Position :=
  if p ∈ l then l else l ++ [p]

/-- Embeds the `while let Some(edge) = stack.pop()` reachability loop of
`Graph::lp`: pop an edge, record its head as a touched node, and push every
not-yet-seen neighbouring edge (the incoming edges of the tail plus the
outgoing edges of the head). The list `stack` holds the top at its head
(`Vec::pop` takes from the end, so the initial stack is reversed below);
`fuel` drives the recursion and the bound `lpSubgraph` passes is ample: each
iteration pops one element, and an element is only ever pushed when it is
first added to `seen`, whose size is bounded by the number of edges of the
grid, at most eight per cell. -/
def lpTraverse (g : Graph) :
    Nat → List Edge → List Edge → List Edge → List Position →
      (List Edge × List Position)
  | 0, _, edges, _, nodes => (edges, nodes)
  | fuel + 1, stack, edges, seen, nodes =>
    match stack with
    | [] => (edges, nodes)
    | e :: rest =>
      let step := (edgesInOf g e.efrom ++ edgesOutOf g e.eto).foldl
        (fun (acc : List Edge × List Edge × List Edge) x =>
          if x ∈ acc.2.2 then acc
          else (x :: acc.1, insertEdge acc.2.1 x, x :: acc.2.2)) (rest, edges, seen)
      lpTraverse g fuel step.1 step.2.1 step.2.2 (insertNode nodes e.eto)

/-- The deduplicated edge set and touched node set `Graph::lp` builds its
variables and constraints over: the closure of the start cell's outgoing
edges under the traversal above. -/
def lpSubgraph (g : Graph) (start : Position) : List Edge × List Position :=
  lpTraverse g ((edgesOutOf g start).length + 8 * g.size * g.size + 1)
    (edgesOutOf g start).reverse (edgesOutOf g start) [] []

/-- The `rhs` sum of `Graph::lp`'s per-node constraint: the variables of the
node's outgoing edges that have a variable (`filter_map` over `edge_vars`,
whose keys are the collected edges). -/
def flowOutSum (g : Graph) (edges : List Edge) (a : Edge → ℚ) (pos : Position) : ℚ :=
  (((edgesOutOf g pos).filter (fun e => decide (e ∈ edges))).map a).sum

/-- The `lhs` sum of `Graph::lp`'s per-node constraint: the variables of the
node's incoming edges that have a variable. -/
def flowInSum (g : Graph) (edges : List Edge) (a : Edge → ℚ) (pos : Position) : ℚ :=
  (((edgesInOf g pos).filter (fun e => decide (e ∈ edges))).map a).sum

/-- The sum of all edge variables, used by the budget constraint. -/
def flowTotalSum (edges : List Edge) (a : Edge → ℚ) : ℚ :=
  (edges.map a).sum

/-- Embeds the constraint system `Graph::lp` hands to the solver, as a
satisfaction predicate over rational assignments to the per-edge binary
variables: the binary domains, then one constraint per touched node (`rhs == 1`
for the start node, `lhs - rhs == 0` otherwise), then the budget constraint
`sum of all variables == max_timesteps`. -/
def lpFlowSat (g : Graph) (start : Position) (max_timesteps : Nat) (a : Edge → ℚ) : Prop :=
  (∀ e ∈ (lpSubgraph g start).1, a e = 0 ∨ a e = 1) ∧
  (∀ n ∈ (lpSubgraph g start).2,
    if n = start then flowOutSum g (lpSubgraph g start).1 a n = 1
    else flowInSum g (lpSubgraph g start).1 a n - flowOutSum g (lpSubgraph g start).1 a n = 0) ∧
  flowTotalSum (lpSubgraph g start).1 a = (max_timesteps : ℚ)

/-- Modelled from the spec: the edge-flow constraint system as §4.4 states
it — the walk leaves the start exactly once, flow is conserved at every other
touched cell, and the number of selected edges equals the step budget (with
the binary variable domains). -/
def FlowSpecConstraints (g : Graph) (start : Position) (max_timesteps : Nat)
    (a : Edge → ℚ) : Prop :=
  (∀ e ∈ (lpSubgraph g start).1, a e = 0 ∨ a e = 1) ∧
  flowOutSum g (lpSubgraph g start).1 a start = 1 ∧
  (∀ n ∈ (lpSubgraph g start).2, n ≠ start →
    flowInSum g (lpSubgraph g start).1 a n = flowOutSum g (lpSubgraph g start).1 a n) ∧
  flowTotalSum (lpSubgraph g start).1 a = (max_timesteps : ℚ)

end RimorLib

/-- C1: on the size-one grid the edge-flow planner's constraint system is
infeasible for any positive step budget — the reachable subgraph has no edges,
so the budget constraint reads `0 == 1`. `Graph::lp` reacts to the failing
solve with `solver.solve().expect("Could not find a solution")`, a panic (its
return type `PathfindingResult` has no error variant), where the claim and
spec require a reported planning failure. -/
theorem lp_size1_budget_infeasible :
    (∃ a : RimorLib.Edge → ℚ,
      RimorLib.lpFlowSat (RimorLib.Graph.new 1) (0, 0) 1 a) ↔ False := by
  constructor
  · rintro ⟨a, -, -, htotal⟩
    have hedges : (RimorLib.lpSubgraph (RimorLib.Graph.new 1) (0, 0)).1 = [] := rfl
    rw [hedges] at htotal
    simp only [RimorLib.flowTotalSum, List.map_nil, List.sum_nil] at htotal
    norm_num at htotal
  · exact False.elim

/-- C8: an assignment satisfies the constraint system `Graph::lp` builds if
and only if it satisfies the spec's description of it — outgoing flow one at
the start, inflow equal to outflow at every other touched cell, and total
selected edges equal to the budget — given that the start cell is among the
touched cells (it is whenever it has any edge, and the per-node constraints
range over the touched cells). The equivalence in both directions shows the
system contains these constraints and no others. -/
theorem lp_flow_constraint_characterization (g : RimorLib.Graph) (start : Position)
    (max_timesteps : Nat) (a : RimorLib.Edge → ℚ)
    (hstart : start ∈ (RimorLib.lpSubgraph g start).2) :
    RimorLib.lpFlowSat g start max_timesteps a ↔
      RimorLib.FlowSpecConstraints g start max_timesteps a := by
  unfold RimorLib.lpFlowSat RimorLib.FlowSpecConstraints
  constructor
  · rintro ⟨h1, h2, h3⟩
    refine ⟨h1, ?_, ?_, h3⟩
    · have h := h2 start hstart
      rwa [if_pos rfl] at h
    · intro n hn hne
      have h := h2 n hn
      rw [if_neg hne] at h
      exact sub_eq_zero.mp h
  · rintro ⟨h1, h2, h3, h4⟩
    refine ⟨h1, ?_, h4⟩
    intro n hn
    by_cases he : n = start
    · rw [if_pos he, he]
      exact h2
    · rw [if_neg he]
      exact sub_eq_zero.mpr (h3 n hn he)

/-- Witness for C8: on the two-by-two grid the start cell is touched, and the
characterization applies to the all-zero assignment with budget zero. -/
theorem lp_flow_constraint_characterization_witness :
    ((0 : Nat), (0 : Nat)) ∈ (RimorLib.lpSubgraph (RimorLib.Graph.new 2) (0, 0)).2 ∧
      (RimorLib.lpFlowSat (RimorLib.Graph.new 2) (0, 0) 0 (fun _ => 0) ↔
        RimorLib.FlowSpecConstraints (RimorLib.Graph.new 2) (0, 0) 0 (fun _ => 0)) :=
  ⟨by decide,
   lp_flow_constraint_characterization (RimorLib.Graph.new 2) (0, 0) 0 (fun _ => 0)
     (by decide)⟩

/-- Witness for C3 at the concrete grid, assignment, cell and time. -/
theorem time_indexed_score_recurrence_witness :
    RimorApp.lpTimeSat RimorApp.gLP (0, 0) 2 1 RimorApp.xA RimorApp.vA RimorApp.sA
      RimorApp.zA ∧
    RimorApp.sA 0 1 1 = RimorApp.sA 0 1 0 + 1 * (1 - RimorApp.vA 0 1 1) :=
  ⟨RimorApp.lpTimeSat_gLP,
   (time_indexed_score_recurrence RimorApp.gLP (0, 0) 2 1 RimorApp.xA RimorApp.vA
      RimorApp.sA RimorApp.zA RimorApp.lpTimeSat_gLP 0 1 1 (by decide) (by decide)
      (by decide) (by decide)).1⟩

